import Mathlib

/-
Verification development for the LP solver in `opta2.py`.

The program solves `maximize Cᵀx  s.t.  A x ≤ b, x ≥ 0` with two algorithms:
  * `method x0 alpha eps b C A` — a primal affine-scaling interior-point loop
    (source lines 17–66), preceded by two applicability checks;
  * `simplex_method_manual C A b` — a dense-tableau primal simplex
    (source lines 68–122).

The embedding is exact: NumPy float arrays become `List ℚ` / `List (List ℚ)`,
so every arithmetic step of the source is mirrored over the rationals.
`np.linalg.inv` is modelled by an adjugate-based inverse that returns `none`
exactly when the determinant is zero — the situation in which NumPy raises
`LinAlgError` (which the source does not catch).  The two unbounded `while`
loops of the source are given an explicit fuel parameter; a `none` result
means the loop is still running after `fuel` iterations.  Conforming shapes
(rectangular `A`, `len b = rows of A`, `len x0 = cols of A`) are assumed as
in NumPy; on ragged input NumPy would raise, which the claims never exercise.
-/

namespace Opta2

/-! ### Exact list-based linear algebra (the NumPy operations used by the source) -/

/-- Dot product of two vectors (`np.dot` semantics on equal-length vectors). -/
def dotL (u v : List ℚ) : ℚ := (List.zipWith (fun a b => a * b) u v).sum

/-- Matrix–vector product `M @ v`. -/
def matVec (M : List (List ℚ)) (v : List ℚ) : List ℚ := M.map (fun r => dotL r v)

/-- Transpose of a rectangular matrix (column lengths taken from the first row,
as NumPy's rectangular arrays guarantee). -/
def transposeL (M : List (List ℚ)) : List (List ℚ) :=
  match M with
  | [] => []
  | r :: _ => (List.range r.length).map (fun j => M.map (fun row => row.getD j 0))

/-- Matrix product `M @ N`. -/
def matMul (M N : List (List ℚ)) : List (List ℚ) :=
  M.map (fun r => (transposeL N).map (fun c => dotL r c))

/-- `np.identity n`. -/
def idMat (n : Nat) : List (List ℚ) :=
  (List.range n).map (fun i => (List.range n).map (fun j => if i = j then (1 : ℚ) else 0))

/-- Entrywise matrix subtraction. -/
def matSub (M N : List (List ℚ)) : List (List ℚ) := List.zipWith (List.zipWith (fun a b => a - b)) M N

/-- `np.diag x`: the square diagonal matrix of a vector. -/
def diagL (x : List ℚ) : List (List ℚ) :=
  (List.range x.length).map
    (fun i => (List.range x.length).map (fun j => if i = j then x.getD i 0 else 0))

/-- Squared Euclidean distance; `np.linalg.norm (u - v) ≤ eps` is expressed as
`0 ≤ eps ∧ sqDist u v ≤ eps ^ 2`, which is equivalent over the reals. -/
def sqDist (u v : List ℚ) : ℚ := (List.zipWith (fun a b => (a - b) ^ 2) u v).sum

/-- Determinant with explicit structural fuel (Laplace expansion along the first
row); `detN` is called with fuel `= number of rows`, so the fuel never runs out. -/
def detN : Nat → List (List ℚ) → ℚ
  | _, [] => 1
  | 0, _ :: _ => 0
  | k + 1, r :: rest =>
      ((List.range r.length).map
        (fun j => (-1 : ℚ) ^ j * r.getD j 0 * detN k (rest.map (fun row => row.eraseIdx j)))).sum

/-- Determinant of a square matrix. -/
def detL (M : List (List ℚ)) : ℚ := detN M.length M

/-- Cofactor of entry `(i, j)`. -/
def cofactorAt (M : List (List ℚ)) (i j : Nat) : ℚ :=
  (-1 : ℚ) ^ (i + j) * detL ((M.eraseIdx i).map (fun row => row.eraseIdx j))

/-- Adjugate (transposed cofactor matrix). -/
def adjugateL (M : List (List ℚ)) : List (List ℚ) :=
  (List.range M.length).map (fun i => (List.range M.length).map (fun j => cofactorAt M j i))

/-- Model of `np.linalg.inv`: `none` when the matrix is singular (determinant
zero), which is exactly when NumPy raises `LinAlgError`; otherwise the inverse
via the adjugate formula. -/
def npLinalgInv (M : List (List ℚ)) : Option (List (List ℚ)) :=
  if detL M = 0 then none
  else some ((adjugateL M).map (fun row => row.map (fun a => a / detL M)))

/-! ### The affine-scaling solver `method` (source lines 17–66) -/

/-- Every status with which one call of `method` can come back.  The source
"returns" by printing; each print site gets a constructor.  `numericalFailure`
and `nonConvergence` are the statuses the specification's error taxonomy
assigns to `AffineScalingSolver`; they are included so claims about them can
be stated, and the theorems below settle whether the code ever produces them. -/
inductive MethodOutcome
  | noSolution          -- line 27: "The problem does not have solution" (row test)
  | notApplicableInit   -- line 33: "The method is not applicable" (A·x0 ≤ b violated)
  | notApplicableGate   -- line 50: "The method is not applicable!" (min reduced cost ≥ 0.1)
  | linAlgError         -- line 44: np.linalg.inv raised on a singular matrix (uncaught)
  | numericalFailure    -- spec §7 taxonomy; no code path produces it
  | nonConvergence      -- spec §7 taxonomy; no code path produces it
  | pyError             -- np.min of an empty vector (ValueError), degenerate shapes
  | converged (x : List ℚ) (obj : ℚ)   -- lines 60-64: solution x* and C @ x*
  deriving DecidableEq, Repr

/-- Result of one body of the `while not solved` loop. -/
inductive StepResult
  | next (x : List ℚ)          -- line 65: `x = x_star`, loop again
  | nextNaN                    -- line 65 with minimum = 0: x_star has NaN entries (0/0 at line 53)
  | exit (o : MethodOutcome)   -- any `return` (or error) inside the body
  deriving DecidableEq, Repr

/-- Line 41: `A_tilda = A @ D` with `D = np.diag x`. -/
def aTilda (A : List (List ℚ)) (x : List ℚ) : List (List ℚ) := matMul A (diagL x)

/-- Lines 43–44: the matrix `A_tilda @ A_tilda.T` that gets inverted. -/
def scaledGram (A : List (List ℚ)) (x : List ℚ) : List (List ℚ) :=
  matMul (aTilda A x) (transposeL (aTilda A x))

/-- Line 42: `c_tilda = D @ C`. -/
def cTilda (C : List ℚ) (x : List ℚ) : List ℚ := matVec (diagL x) C

/-- Line 44: `mult = A_tilda.T @ inv(A_tilda @ A_tilda.T) @ A_tilda`. -/
def multMat (A : List (List ℚ)) (x : List ℚ) (inv : List (List ℚ)) : List (List ℚ) :=
  matMul (matMul (transposeL (aTilda A x)) inv) (aTilda A x)

/-- Line 45: `P = np.identity (mult.shape 0) - mult`. -/
def projMat (A : List (List ℚ)) (x : List ℚ) (inv : List (List ℚ)) : List (List ℚ) :=
  matSub (idMat (multMat A x inv).length) (multMat A x inv)

/-- Line 46: `c_p = P @ c_tilda`. -/
def reducedCost (C : List ℚ) (A : List (List ℚ)) (x : List ℚ) (inv : List (List ℚ)) : List ℚ :=
  matVec (projMat A x inv) (cTilda C x)

/-- `np.min` of a vector; `none` on the empty vector (NumPy raises there). -/
def minL : List ℚ → Option ℚ
  | [] => none
  | a :: rest =>
    match minL rest with
    | none => some a
    | some m => some (min a m)

/-- One iteration of the loop body, lines 39–65.  `v = np.abs minimum` is zero
exactly when `minimum = 0`; there the source computes `x_tilda = 1 + α·c_p/0.0`,
whose entries are NaN, the convergence test `norm(x_star - x) <= eps` is false
on NaN, and line 65 installs that NaN vector as the next iterate.  The result
`nextNaN` records exactly that: the loop continues, but the iterate it carries
forward is not a rational (let alone strictly positive) vector. -/
def methodStep (alpha eps : ℚ) (C : List ℚ) (A : List (List ℚ)) (x : List ℚ) : StepResult :=
  match npLinalgInv (scaledGram A x) with
  | none => .exit .linAlgError
  | some inv =>
    match minL (reducedCost C A x inv) with
    | none => .exit .pyError
    | some mn =>
      if (1 : ℚ) / 10 ≤ mn then .exit .notApplicableGate
      else if mn = 0 then .nextNaN
      else
        let xt := (reducedCost C A x inv).map (fun c => 1 + alpha * c / |mn|)
        let xs := matVec (diagL x) xt
        if 0 ≤ eps ∧ sqDist xs x ≤ eps ^ 2 then .exit (.converged xs (dotL C xs))
        else .next xs

/-- The `while not solved` loop (line 38), with fuel; `none` = the call has not
returned.  That happens when the fuel runs out (the source has no iteration
cap), and also once the iterate holds NaN entries (`nextNaN`): from then on the
gate at line 49 and the convergence test at line 59 compare against NaN and are
false on every later round, and LAPACK reports singularity only for an exactly
zero pivot — which NaN is not — so the source loop spins on NaN vectors and
never returns. -/
def methodLoop (alpha eps : ℚ) (C : List ℚ) (A : List (List ℚ)) :
    Nat → List ℚ → Option MethodOutcome
  | 0, _ => none
  | fuel + 1, x =>
    match methodStep alpha eps C A x with
    | .exit o => some o
    | .next x' => methodLoop alpha eps C A fuel x'
    | .nextNaN => none

/-- Lines 18–26: `sol` stays true iff every row of `A` has a strictly positive entry. -/
def rowsHavePositive (A : List (List ℚ)) : Bool :=
  A.all (fun row => row.any (fun v => decide (0 < v)))

/-- Lines 29–34: some component of `A @ x0` exceeds the matching component of `b`. -/
def boundViolated (A : List (List ℚ)) (x0 b : List ℚ) : Bool :=
  (List.zip (matVec A x0) b).any (fun p => decide (p.2 < p.1))

/-- `method x0 alpha eps b C A` of the source (same argument order), with fuel
for the iteration loop.  Line 35 copies `x0` (`np.array(x0, dtype=float)`), so
the loop starts from the value of `x0`. -/
def method (x0 : List ℚ) (alpha eps : ℚ) (b C : List ℚ) (A : List (List ℚ))
    (fuel : Nat) : Option MethodOutcome :=
  if rowsHavePositive A then
    if boundViolated A x0 b then some .notApplicableInit
    else methodLoop alpha eps C A fuel x0
  else some .noSolution

/-! ### The simplex solver `simplex_method_manual` (source lines 68–122) -/

/-- `oLt a b` is the strict order NumPy's `argmin` effectively uses on the ratio
list, where `none` stands for `np.inf`. -/
def oLt : Option ℚ → Option ℚ → Bool
  | some a, some b => decide (a < b)
  | some _, none => true
  | none, _ => false

/-- `np.argmin`: index and value of the first minimum of a list (`none` stands
for `np.inf`; NumPy raises on an empty list, hence the `Option` result).
The head is replaced only by a strictly smaller later value, so ties go to the
lowest index, matching NumPy's scan. -/
def argminO : List (Option ℚ) → Option (Nat × Option ℚ)
  | [] => none
  | a :: rest =>
    match argminO rest with
    | none => some (0, a)
    | some (i, m) => if oLt m a then some (i + 1, m) else some (0, a)

/-- Line 76's slack identity block: row `i` of `np.eye m`. -/
def slackRow (i m : Nat) : List ℚ := (List.range m).map (fun k => if k = i then (1 : ℚ) else 0)

/-- Lines 74–78: the initial tableau.  Constraint row `i` is
`A i ++ (np.eye m) i ++ [b i]`; the last row is `-C ++ 0-block ++ [0]`. -/
def buildTableau (C : List ℚ) (A : List (List ℚ)) (b : List ℚ) : List (List ℚ) :=
  ((A.zip b).enum.map (fun p => p.2.1 ++ slackRow p.1 b.length ++ [p.2.2]))
    ++ [C.map (fun c => -c) ++ List.replicate b.length (0 : ℚ) ++ [(0 : ℚ)]]

/-- `List.mapIdx` spelled through `enum` so that kernel reduction is immediate. -/
def mapIdxL (f : Nat → α → β) (l : List α) : List β := l.enum.map (fun p => f p.1 p.2)

/-- Lines 100–106, one pivot: normalize the pivot row by the pivot element, then
subtract `row[pc] ×` (normalized pivot row) from every other row. -/
def pivotT (T : List (List ℚ)) (pr pc : Nat) : List (List ℚ) :=
  let prow := T.getD pr []
  let pv := prow.getD pc 0
  let npr := prow.map (fun a => a / pv)
  mapIdxL (fun i row =>
    if i = pr then npr
    else List.zipWith (fun a bb => a - row.getD pc 0 * bb) row npr) T

/-- Lines 88–93: the ratio list over the constraint rows (all rows but the
objective row); `none` is the `np.inf` placed at non-positive pivot entries. -/
def ratioList (T : List (List ℚ)) (pc : Nat) : List (Option ℚ) :=
  T.dropLast.map (fun row =>
    if 0 < row.getD pc 0 then some (row.getLastD 0 / row.getD pc 0) else none)

/-- Lines 95–98 condensed: `none` = `np.argmin` hit an empty ratio list (NumPy
raises); `some none` = the minimal ratio is `np.inf`, i.e. unbounded;
`some (some r)` = pivot row `r`. -/
def chooseLeaving (T : List (List ℚ)) (pc : Nat) : Option (Option Nat) :=
  match argminO (ratioList T pc) with
  | none => none
  | some (_, none) => some none
  | some (pr, some _) => some (some pr)

/-- How one run of the `while True` loop (line 81) can end. -/
inductive LoopResult
  | done (T : List (List ℚ)) (pivots : Nat)  -- line 85 `break`: optimal tableau reached
  | unbounded                                -- line 97: no finite ratio
  | err                                      -- np.argmin on an empty slice (ValueError)
  deriving DecidableEq, Repr

/-- The pivoting loop, with fuel and a pivot counter; `none` = still pivoting
after `fuel` rounds. -/
def simplexLoop : Nat → List (List ℚ) → Nat → Option LoopResult
  | 0, _, _ => none
  | fuel + 1, T, count =>
    let objRow := T.getLastD []
    match argminO ((objRow.dropLast).map some) with
    | none => some .err
    | some (pc, _) =>
      if 0 ≤ objRow.getD pc 0 then some (.done T count)
      else
        match chooseLeaving T pc with
        | none => some .err
        | some none => some .unbounded
        | some (some pr) => simplexLoop fuel (pivotT T pr pc) (count + 1)

/-- Lines 110–118: for each original-variable column, the code's basicness test
is `np.sum (col == 1) == 1 and np.sum (col > 1) == 0` over the whole column
(objective row included); when it holds, the value is the RHS of the first row
whose entry equals 1 (`np.where (col == 1) 0 0`), otherwise 0. -/
def extractSolution (T : List (List ℚ)) (numVars : Nat) : List ℚ :=
  (List.range numVars).map (fun j =>
    let col := T.map (fun row => row.getD j 0)
    if col.countP (fun a => decide (a = 1)) = 1 ∧ col.countP (fun a => decide (1 < a)) = 0 then
      (T.getD (col.findIdx (fun a => decide (a = 1))) []).getLastD 0
    else 0)

/-- What one call of `simplex_method_manual` can print. -/
inductive SimplexOutcome
  | unbounded                                 -- line 97
  | optimal (sol : List ℚ) (obj : ℚ)          -- lines 121–122 (obj = tableau[-1,-1])
  | pyError
  deriving DecidableEq, Repr

/-- Run the loop from a given tableau and extract. -/
def simplexFromTableau (T : List (List ℚ)) (numVars fuel : Nat) : Option SimplexOutcome :=
  match simplexLoop fuel T 0 with
  | none => none
  | some .err => some .pyError
  | some .unbounded => some .unbounded
  | some (.done T' _) =>
      some (.optimal (extractSolution T' numVars) ((T'.getLastD []).getLastD 0))

/-- `simplex_method_manual C A b` of the source (same argument order), with fuel. -/
def simplex_method_manual (C : List ℚ) (A : List (List ℚ)) (b : List ℚ)
    (fuel : Nat) : Option SimplexOutcome :=
  simplexFromTableau (buildTableau C A b) C.length fuel

/-! ### Helper lemmas about the list primitives -/

theorem getD_mem_of_lt {α} (l : List α) (d : α) {i : Nat} (h : i < l.length) :
    l.getD i d ∈ l := by
  rw [List.getD_eq_getElem l d h]; exact List.getElem_mem h

theorem getD_map_of_lt {α β} (f : α → β) (l : List α) (d : β) (d' : α) {i : Nat}
    (h : i < l.length) : (l.map f).getD i d = f (l.getD i d') := by
  rw [List.getD_eq_getElem _ d (by simpa using h), List.getD_eq_getElem _ d' h,
    List.getElem_map]

theorem getD_dropLast {α} (l : List α) (d : α) {i : Nat} (h : i < l.length - 1) :
    l.dropLast.getD i d = l.getD i d := by
  have h1 : i < l.dropLast.length := by simpa using h
  have h2 : i < l.length := lt_of_lt_of_le h (Nat.sub_le _ _)
  rw [List.getD_eq_getElem _ d h1, List.getD_eq_getElem _ d h2, List.getElem_dropLast]

theorem mem_getD {α} {v : α} {l : List α} (d : α) (h : v ∈ l) :
    ∃ i, i < l.length ∧ l.getD i d = v := by
  rcases List.mem_iff_getElem.mp h with ⟨i, hi, hv⟩
  exact ⟨i, hi, by rw [List.getD_eq_getElem _ d hi]; exact hv⟩

theorem getD_range {n i : Nat} (d : Nat) (h : i < n) : (List.range n).getD i d = i := by
  rw [List.getD_eq_getElem _ d (by simpa using h), List.getElem_range]

theorem minL_eq_none {l : List ℚ} : minL l = none ↔ l = [] := by
  cases l with
  | nil => simp [minL]
  | cons a rest => cases h' : minL rest <;> simp [minL, h']

theorem minL_le {l : List ℚ} {m : ℚ} (h : minL l = some m) : ∀ a ∈ l, m ≤ a := by
  induction l generalizing m with
  | nil => simp [minL] at h
  | cons a rest ih =>
    rw [minL] at h
    cases h' : minL rest with
    | none =>
      rw [h'] at h
      have hrest : rest = [] := minL_eq_none.mp h'
      subst hrest
      simp only [Option.some.injEq] at h
      subst h
      simp
    | some mr =>
      rw [h'] at h
      simp only [Option.some.injEq] at h
      subst h
      intro b hb
      rcases List.mem_cons.mp hb with rfl | hb'
      · exact min_le_left _ _
      · exact (min_le_right a mr).trans (ih h' b hb')

theorem oLt_irrefl (a : Option ℚ) : oLt a a = false := by
  cases a <;> simp [oLt]

theorem oLt_asymm {a b : Option ℚ} (h : oLt a b = true) : oLt b a = false := by
  cases a <;> cases b <;> simp_all [oLt] <;> linarith

theorem oLt_shift {x m a : Option ℚ} (h1 : oLt x a = true) (h2 : oLt x m = false) :
    oLt m a = true := by
  cases x <;> cases m <;> cases a <;> simp_all [oLt] <;> linarith

theorem argminO_eq_none {l : List (Option ℚ)} : argminO l = none ↔ l = [] := by
  cases l with
  | nil => simp [argminO]
  | cons a rest =>
    cases h' : argminO rest with
    | none => simp [argminO, h']
    | some p =>
      obtain ⟨i, m⟩ := p
      simp only [argminO, h']
      split <;> simp

theorem argminO_spec {l : List (Option ℚ)} {i : Nat} {m : Option ℚ}
    (h : argminO l = some (i, m)) :
    i < l.length ∧ l.getD i none = m ∧
      (∀ j, j < l.length → oLt (l.getD j none) m = false) ∧
      (∀ j, j < i → oLt m (l.getD j none) = true) := by
  induction l generalizing i m with
  | nil => simp [argminO] at h
  | cons a rest ih =>
    rw [argminO] at h
    cases h' : argminO rest with
    | none =>
      rw [h'] at h
      have hrest : rest = [] := argminO_eq_none.mp h'
      subst hrest
      simp only [Option.some.injEq, Prod.mk.injEq] at h
      obtain ⟨rfl, rfl⟩ := h
      refine ⟨by simp, rfl, ?_, by omega⟩
      intro j hj
      have hj0 : j = 0 := by simp at hj; omega
      subst hj0
      exact oLt_irrefl a
    | some p =>
      obtain ⟨i', m'⟩ := p
      rw [h'] at h
      dsimp only at h
      obtain ⟨hlen', hval', hmin', hfirst'⟩ := ih h'
      by_cases hlt : oLt m' a = true
      · rw [if_pos hlt] at h
        simp only [Option.some.injEq, Prod.mk.injEq] at h
        obtain ⟨rfl, rfl⟩ := h
        refine ⟨by simpa using Nat.succ_lt_succ hlen', hval', ?_, ?_⟩
        · intro j hj
          cases j with
          | zero => exact oLt_asymm hlt
          | succ j => exact hmin' j (by simpa using hj)
        · intro j hj
          cases j with
          | zero => exact hlt
          | succ j => exact hfirst' j (by omega)
      · rw [if_neg hlt] at h
        simp only [Option.some.injEq, Prod.mk.injEq] at h
        obtain ⟨rfl, rfl⟩ := h
        refine ⟨by simp, rfl, ?_, by omega⟩
        intro j hj
        cases j with
        | zero => exact oLt_irrefl a
        | succ j =>
          cases hxa : oLt (rest.getD j none) a with
          | false => simpa using hxa
          | true =>
            have := oLt_shift hxa (hmin' j (by simpa using hj))
            exact absurd this (by simp [hlt])

theorem findIdx_spec {α} (p : α → Bool) (d : α) {l : List α} (h : ∃ x ∈ l, p x = true) :
    l.findIdx p < l.length ∧ p (l.getD (l.findIdx p) d) = true ∧
      ∀ k, k < l.findIdx p → p (l.getD k d) = false := by
  induction l with
  | nil => simp at h
  | cons a rest ih =>
    cases hpa : p a with
    | true => refine ⟨?_, ?_, ?_⟩ <;> simp [List.findIdx_cons, hpa]
    | false =>
      have hex : ∃ x ∈ rest, p x = true := by
        rcases h with ⟨x, hx, hpx⟩
        rcases List.mem_cons.mp hx with rfl | hx'
        · rw [hpa] at hpx; exact absurd hpx (by simp)
        · exact ⟨x, hx', hpx⟩
      obtain ⟨h1, h2, h3⟩ := ih hex
      rw [List.findIdx_cons, hpa]
      simp only [cond_false]
      refine ⟨by simpa using Nat.succ_lt_succ h1, h2, ?_⟩
      intro k hk
      cases k with
      | zero => simpa using hpa
      | succ k => exact h3 k (Nat.lt_of_succ_lt_succ hk)

theorem dotL_zeroRow {β} : ∀ (l : List β) (ys : List ℚ),
    dotL (l.map (fun _ => (0 : ℚ))) ys = 0 := by
  intro l
  induction l with
  | nil => intro ys; simp [dotL]
  | cons x l ih =>
    intro ys
    cases ys with
    | nil => simp [dotL]
    | cons a ys =>
      have h0 : dotL ((0 : ℚ) :: l.map (fun _ => (0 : ℚ))) (a :: ys)
          = 0 * a + dotL (l.map (fun _ => (0 : ℚ))) ys := by
        simp [dotL]
      simp only [List.map_cons]
      rw [h0, ih ys]
      ring

theorem dotL_single (c : ℚ) : ∀ (n : Nat) (i : Nat) (y : List ℚ), i < n → n ≤ y.length →
    dotL ((List.range n).map (fun j => if i = j then c else 0)) y = c * y.getD i 0 := by
  intro n
  induction n with
  | zero => omega
  | succ n ih =>
    intro i y hi hn
    cases y with
    | nil => simp at hn
    | cons a ys =>
      rw [List.range_succ_eq_map, List.map_cons, List.map_map]
      cases i with
      | zero =>
        have hz : (List.range n).map ((fun j => if 0 = j then c else 0) ∘ Nat.succ)
            = (List.range n).map (fun _ => (0 : ℚ)) := by
          refine List.map_congr_left ?_
          intro j _
          simp [Function.comp]
        rw [hz]
        have h0 : dotL ((if (0 : Nat) = 0 then c else 0) :: (List.range n).map (fun _ => (0 : ℚ)))
            (a :: ys) = c * a + dotL ((List.range n).map (fun _ => (0 : ℚ))) ys := by
          simp [dotL]
        rw [h0, dotL_zeroRow (List.range n) ys]
        simp
      | succ k =>
        have hz : (List.range n).map ((fun j => if k + 1 = j then c else 0) ∘ Nat.succ)
            = (List.range n).map (fun j => if k = j then c else 0) := by
          refine List.map_congr_left ?_
          intro j _
          simp [Function.comp]
        rw [hz]
        have hstep : dotL ((if k + 1 = 0 then c else 0)
              :: (List.range n).map (fun j => if k = j then c else 0)) (a :: ys)
            = 0 * a + dotL ((List.range n).map (fun j => if k = j then c else 0)) ys := by
          simp [dotL]
        rw [hstep, ih k ys (by omega) (by simpa using hn)]
        simp

/-! ### Which outcomes the affine-scaling loop can produce -/

theorem methodStep_exit_cases {alpha eps : ℚ} {C : List ℚ} {A : List (List ℚ)}
    {x : List ℚ} {o : MethodOutcome} (h : methodStep alpha eps C A x = .exit o) :
    o = .linAlgError ∨ o = .pyError ∨ o = .notApplicableGate ∨
      ∃ xs v, o = .converged xs v := by
  simp only [methodStep] at h
  split at h
  · exact Or.inl (by injection h with h; exact h.symm)
  · split at h
    · exact Or.inr (Or.inl (by injection h with h; exact h.symm))
    · split at h
      · exact Or.inr (Or.inr (Or.inl (by injection h with h; exact h.symm)))
      · split at h
        · exact absurd h (by simp)
        · split at h
          · exact Or.inr (Or.inr (Or.inr ⟨_, _, by injection h with h; exact h.symm⟩))
          · exact absurd h (by simp)

theorem methodLoop_outcome {alpha eps : ℚ} {C : List ℚ} {A : List (List ℚ)} :
    ∀ (fuel : Nat) (x : List ℚ) (o : MethodOutcome),
      methodLoop alpha eps C A fuel x = some o →
      o = .linAlgError ∨ o = .pyError ∨ o = .notApplicableGate ∨
        ∃ xs v, o = .converged xs v := by
  intro fuel
  induction fuel with
  | zero => intro x o h; simp [methodLoop] at h
  | succ fuel ih =>
    intro x o h
    rw [methodLoop] at h
    cases hstep : methodStep alpha eps C A x with
    | exit o' =>
      rw [hstep] at h
      injection h with h
      subst h
      exact methodStep_exit_cases hstep
    | next x' =>
      rw [hstep] at h
      exact ih x' o h
    | nextNaN =>
      rw [hstep] at h
      exact absurd h (by simp)

/-- The affine-scaling outcomes `method` can actually deliver, lifted to the whole
call: never the spec-taxonomy statuses `numericalFailure` or `nonConvergence`. -/
theorem method_outcome {x0 : List ℚ} {alpha eps : ℚ} {b C : List ℚ} {A : List (List ℚ)}
    {fuel : Nat} {o : MethodOutcome} (h : method x0 alpha eps b C A fuel = some o) :
    o = .noSolution ∨ o = .notApplicableInit ∨ o = .linAlgError ∨ o = .pyError ∨
      o = .notApplicableGate ∨ ∃ xs v, o = .converged xs v := by
  rw [method] at h
  by_cases hrow : rowsHavePositive A
  · rw [if_pos hrow] at h
    by_cases hb : boundViolated A x0 b
    · rw [if_pos hb] at h
      injection h with h
      exact Or.inr (Or.inl h.symm)
    · rw [if_neg hb] at h
      rcases methodLoop_outcome fuel x0 o h with h1 | h1 | h1 | h1 <;>
        simp [h1]
  · rw [if_neg hrow] at h
    injection h with h
    exact Or.inl h.symm

/-! ### Symbolic evaluation of one affine-scaling iteration on the instance
`C = [0, -2]`, `A = [[1, -1]]`, `α = 1/2`, `ε = 0`, iterate `[s, s]` -/

theorem diag_ss (s : ℚ) : diagL [s, s] = [[s, 0], [0, s]] := by
  simp [diagL, List.range_succ]

theorem aT_ss (s : ℚ) : aTilda [[1, -1]] [s, s] = [[s, -s]] := by
  rw [aTilda, diag_ss]
  simp [matMul, transposeL, dotL, List.range_succ]

theorem gram_ss (s : ℚ) : scaledGram [[1, -1]] [s, s] = [[2 * s ^ 2]] := by
  rw [scaledGram, aT_ss]
  simp [matMul, transposeL, dotL, List.range_succ]
  ring

theorem det_single (c : ℚ) : detL [[c]] = c := by
  simp [detL, detN, List.range_succ]

theorem inv_ss (s : ℚ) (hs : s ≠ 0) :
    npLinalgInv [[2 * s ^ 2]] = some [[1 / (2 * s ^ 2)]] := by
  have h2 : (2 * s ^ 2 : ℚ) ≠ 0 := by positivity
  rw [npLinalgInv, det_single, if_neg h2]
  simp [adjugateL, cofactorAt, detL, detN, List.range_succ]

theorem mult_ss (s : ℚ) (hs : s ≠ 0) :
    multMat [[1, -1]] [s, s] [[1 / (2 * s ^ 2)]] = [[1/2, -(1/2)], [-(1/2), 1/2]] := by
  rw [multMat, aT_ss]
  simp [matMul, transposeL, dotL, List.range_succ]
  field_simp
  ring

theorem cp_ss (s : ℚ) (hs : s ≠ 0) :
    reducedCost [0, -2] [[1, -1]] [s, s] [[1 / (2 * s ^ 2)]] = [-s, -s] := by
  rw [reducedCost, projMat, mult_ss s hs, cTilda, diag_ss]
  simp [matVec, matSub, idMat, dotL, List.range_succ]
  constructor <;> ring

theorem minL_ss (s : ℚ) : minL [-s, -s] = some (-s) := by
  simp [minL]

/-- One loop body maps the iterate `[s, s]` (s > 0) to `[s/2, s/2]`: the gate
does not fire (`min c_p = -s < 1/10`), and with `ε = 0` the convergence test
`‖x* - x‖ ≤ 0` fails because the distance is strictly positive. -/
theorem methodStep_half {s : ℚ} (hs : 0 < s) :
    methodStep (1/2) 0 [0, -2] [[1, -1]] [s, s] = .next [s/2, s/2] := by
  have hs0 : s ≠ 0 := ne_of_gt hs
  have hxt : List.map (fun c => 1 + 1 / 2 * c / |(-s)|) [-s, -s] = [1/2, 1/2] := by
    rw [abs_neg, abs_of_pos hs]
    simp only [List.map_cons, List.map_nil]
    have hh : (1 : ℚ) + 1 / 2 * -s / s = 1/2 := by
      field_simp
      ring
    rw [hh]
  have hxs : matVec (diagL [s, s]) [1/2, 1/2] = [s/2, s/2] := by
    rw [diag_ss]
    simp [matVec, dotL]
    ring
  have hsq : ¬(0 ≤ (0:ℚ) ∧ sqDist [s/2, s/2] [s, s] ≤ 0 ^ 2) := by
    rintro ⟨-, h2⟩
    simp [sqDist] at h2
    nlinarith
  rw [methodStep, gram_ss, inv_ss s hs0]
  dsimp only
  rw [cp_ss s hs0, minL_ss]
  dsimp only
  rw [if_neg (by linarith : ¬ (1:ℚ)/10 ≤ -s), if_neg (by simpa using hs0 : ¬ (-s : ℚ) = 0)]
  rw [hxt, hxs]
  rw [if_neg hsq]

/-- On this instance the loop is still running after any number of iterations:
from `[s, s]` with `s > 0` each body hands `[s/2, s/2]` to the next round. -/
theorem methodLoop_never_halts :
    ∀ (fuel : Nat) (s : ℚ), 0 < s →
      methodLoop (1/2) 0 [0, -2] [[1, -1]] fuel [s, s] = none := by
  intro fuel
  induction fuel with
  | zero => intro s _; rfl
  | succ fuel ih =>
    intro s hs
    rw [methodLoop, methodStep_half hs]
    exact ih (s/2) (by linarith)

/-! ### C5: strict positivity of the affine-scaling iterates -/


theorem diagL_row_length {x : List ℚ} {r : List ℚ} (hr : r ∈ diagL x) :
    r.length = x.length := by
  simp [diagL] at hr
  obtain ⟨i, _, rfl⟩ := hr
  simp

theorem length_matMul (M N : List (List ℚ)) : (matMul M N).length = M.length := by
  simp [matMul]

theorem length_transposeL_cons (r : List ℚ) (rest : List (List ℚ)) :
    (transposeL (r :: rest)).length = r.length := by
  simp [transposeL]

theorem reducedCost_length {C : List ℚ} {A : List (List ℚ)} {x : List ℚ}
    {inv : List (List ℚ)} (hA : A ≠ []) (hx : x ≠ []) :
    (reducedCost C A x inv).length = x.length := by
  obtain ⟨a, A', rfl⟩ := List.exists_cons_of_ne_nil hA
  have hdne : diagL x ≠ [] := by
    intro h0
    have hlen0 : (diagL x).length = 0 := by rw [h0]; rfl
    simp [diagL] at hlen0
    exact hx hlen0
  obtain ⟨d0, drest, hd⟩ := List.exists_cons_of_ne_nil hdne
  have hd0len : d0.length = x.length :=
    diagL_row_length (by rw [hd]; exact List.mem_cons_self d0 drest)
  have htd : (transposeL (diagL x)).length = x.length := by
    rw [hd, length_transposeL_cons, hd0len]
  have haT : aTilda (a :: A') x
      = ((transposeL (diagL x)).map (fun c => dotL a c))
        :: (A'.map (fun r => (transposeL (diagL x)).map (fun c => dotL r c))) := by
    simp [aTilda, matMul]
  have htA : (transposeL (aTilda (a :: A') x)).length = x.length := by
    rw [haT, length_transposeL_cons]
    simp [htd]
  have hmult : (multMat (a :: A') x inv).length = x.length := by
    rw [multMat, length_matMul, length_matMul, htA]
  have hproj : (projMat (a :: A') x inv).length = x.length := by
    rw [projMat, matSub, List.length_zipWith, hmult]
    simp [idMat]
  rw [reducedCost]
  simp [matVec, hproj]

theorem reducedCost_nil (C x : List ℚ) (inv : List (List ℚ)) :
    reducedCost C [] x inv = [] := by
  simp [reducedCost, projMat, multMat, aTilda, matMul, transposeL, matVec, matSub, idMat]

theorem npLinalgInv_nilRow (rest : List (List ℚ)) : npLinalgInv ([] :: rest) = none := by
  have hdet : detL ([] :: rest) = 0 := by
    rw [detL]
    simp [detN]
  rw [npLinalgInv, if_pos hdet]

theorem scaledGram_x_nil (a : List ℚ) (A' : List (List ℚ)) :
    scaledGram (a :: A') [] = [] :: (A'.map (fun _ => [])) := by
  simp [scaledGram, aTilda, diagL, matMul, transposeL]

theorem step_term_pos {alpha mn q : ℚ} (h0 : 0 < alpha) (h1 : alpha < 1)
    (hmn0 : mn ≠ 0) (hge : mn ≤ q) : 0 < 1 + alpha * q / |mn| := by
  rcases lt_or_gt_of_ne hmn0 with hneg | hpos
  · have hdiv : mn / |mn| ≤ q / |mn| := by gcongr
    have hm1 : mn / |mn| = -1 := by
      rw [abs_of_neg hneg]
      field_simp
    rw [hm1] at hdiv
    have hmul : alpha * -1 ≤ alpha * (q / |mn|) :=
      mul_le_mul_of_nonneg_left hdiv h0.le
    rw [mul_div_assoc]
    nlinarith
  · have habs' : |mn| = mn := abs_of_pos hpos
    have hdiv : (1:ℚ) ≤ q / |mn| := by
      rw [habs']
      exact (one_le_div hpos).mpr hge
    have hmul : alpha * 1 ≤ alpha * (q / |mn|) :=
      mul_le_mul_of_nonneg_left hdiv h0.le
    rw [mul_div_assoc]
    nlinarith

/-- C5 (amended): if the current iterate `x` is strictly positive, the step
size `alpha` lies in (0,1), and the loop body's division by `|minimum|` is
well-defined (the minimum reduced cost is nonzero, so the body hands a rational
candidate to the next iteration — a `.next` result of `methodStep`), then that
candidate `x* = D·x̃` is again strictly positive in every entry, and the
diagonal scaling `D = diag x` stays well-defined.  When the minimum reduced
cost is exactly 0 the body instead divides 0/0 and installs a NaN vector as
the next iterate (`nextNaN`), which is not strictly positive — see the
counterexample below. -/
theorem c5_iterates_stay_positive (alpha eps : ℚ) (C : List ℚ) (A : List (List ℚ))
    (x x' : List ℚ) (hx : ∀ v ∈ x, 0 < v) (h0 : 0 < alpha) (h1 : alpha < 1)
    (hstep : methodStep alpha eps C A x = .next x') : ∀ v ∈ x', 0 < v := by
  rw [methodStep] at hstep
  cases hinv : npLinalgInv (scaledGram A x) with
  | none => rw [hinv] at hstep; simp at hstep
  | some inv =>
    rw [hinv] at hstep
    dsimp only at hstep
    cases hmn : minL (reducedCost C A x inv) with
    | none => rw [hmn] at hstep; simp at hstep
    | some mn =>
      rw [hmn] at hstep
      dsimp only at hstep
      by_cases hgate : (1:ℚ)/10 ≤ mn
      · rw [if_pos hgate] at hstep; simp at hstep
      rw [if_neg hgate] at hstep
      by_cases hmn0 : mn = (0:ℚ)
      · rw [if_pos hmn0] at hstep; simp at hstep
      rw [if_neg hmn0] at hstep
      split at hstep
      · simp at hstep
      injection hstep with hxeq
      subst hxeq
      have hA : A ≠ [] := by
        intro hAe
        subst hAe
        rw [reducedCost_nil] at hmn
        exact absurd hmn (by simp [minL])
      have hxne : x ≠ [] := by
        intro hxe
        subst hxe
        obtain ⟨a, A', rfl⟩ := List.exists_cons_of_ne_nil hA
        rw [scaledGram_x_nil, npLinalgInv_nilRow] at hinv
        exact absurd hinv (by simp)
      have hcplen : (reducedCost C A x inv).length = x.length :=
        reducedCost_length hA hxne
      intro v hv
      rw [matVec] at hv
      obtain ⟨r, hr, rfl⟩ := List.mem_map.mp hv
      have hr' := hr
      simp only [diagL] at hr'
      obtain ⟨i, hi, rfl⟩ := List.mem_map.mp hr'
      have hilt : i < x.length := List.mem_range.mp hi
      have hxtlen : x.length ≤ ((reducedCost C A x inv).map
          (fun c => 1 + alpha * c / |mn|)).length := by
        simp [hcplen]
      rw [dotL_single (x.getD i 0) x.length i _ hilt hxtlen]
      have hxi : 0 < x.getD i 0 := hx _ (getD_mem_of_lt x 0 hilt)
      have hq : (((reducedCost C A x inv).map
          (fun c => 1 + alpha * c / |mn|)).getD i 0)
          = 1 + alpha * ((reducedCost C A x inv).getD i 0) / |mn| :=
        getD_map_of_lt _ _ 0 0 (by rw [hcplen]; exact hilt)
      rw [hq]
      have hmem : (reducedCost C A x inv).getD i 0 ∈ reducedCost C A x inv :=
        getD_mem_of_lt _ 0 (by rw [hcplen]; exact hilt)
      have hge : mn ≤ (reducedCost C A x inv).getD i 0 := minL_le hmn _ hmem
      exact mul_pos hxi (step_term_pos h0 h1 hmn0 hge)


/-- Witness for C5 (amended) at the concrete input `α = 1/2`, `ε = 0`,
`C = [0,-2]`, `A = [[1,-1]]`, `x = [1,1]`: the produced next iterate is
`[1/2, 1/2]` and its first entry is strictly positive. -/
theorem c5_iterates_stay_positive_witness : 0 < (1:ℚ)/2 :=
  c5_iterates_stay_positive (1/2) 0 [0, -2] [[1, -1]] [1, 1] [1/2, 1/2]
    (by norm_num) (by norm_num) (by norm_num) (methodStep_half one_pos)
    ((1:ℚ)/2) (by norm_num)

/-- C5 (counterexample): the division by zero is reachable with every
hypothesis of the claim satisfied.  On `C = [1, 1]`, `A = [[1, 1]]`,
`b = [5]`, `x0 = [1, 1]` (strictly positive, rows have positive entries, and
`A·x0 = [2] ≤ b`), `α = 1/2`: the reduced cost is exactly `[0, 0]`, so
`minimum = 0` and the source computes `x_tilda = 1 + α·c_p/0.0` — a NaN
vector — and line 65 installs `x_star = D·x_tilda` as the next iterate.  That
candidate becomes the next `x` yet no entry of it is strictly positive,
refuting the claim as stated.  (Every intermediate value here is a small
dyadic, exactly representable in floats, so the float run reaches
`minimum = 0.0` exactly.) -/
theorem c5_nan_iterate_counterexample :
    methodStep (1/2) (1/1000) [1, 1] [[1, 1]] [1, 1] = StepResult.nextNaN
    ∧ rowsHavePositive [[1, 1]] = true
    ∧ boundViolated [[1, 1]] [1, 1] [5] = false := by
  refine ⟨?_, by decide, by norm_num [boundViolated, matVec, dotL]⟩
  have hg : scaledGram [[1, 1]] [1, 1] = [[2]] := by
    norm_num [scaledGram, aTilda, diagL, matMul, transposeL, dotL, List.range_succ]
  have hinv : npLinalgInv [[(2:ℚ)]] = some [[1/2]] := by
    rw [npLinalgInv, det_single, if_neg (by norm_num)]
    norm_num [adjugateL, cofactorAt, detL, detN, List.range_succ]
  have hcp : reducedCost [1, 1] [[1, 1]] [1, 1] [[1/2]] = [0, 0] := by
    norm_num [reducedCost, projMat, multMat, aTilda, cTilda, diagL, matMul, matVec,
      transposeL, matSub, idMat, dotL, List.range_succ]
  have hmin : minL [(0:ℚ), 0] = some 0 := by simp [minL]
  rw [methodStep, hg, hinv]
  dsimp only
  rw [hcp, hmin]
  dsimp only
  rw [if_neg (by norm_num : ¬ (1:ℚ)/10 ≤ 0), if_pos rfl]

/-! ### C8 and C9: the simplex pivot selection -/


theorem length_ratioList (T : List (List ℚ)) (pc : Nat) :
    (ratioList T pc).length = T.dropLast.length := by
  simp [ratioList]

theorem ratioList_getD (T : List (List ℚ)) (pc : Nat) {i : Nat}
    (h : i < T.dropLast.length) :
    (ratioList T pc).getD i none
      = (if 0 < (T.dropLast.getD i []).getD pc 0
          then some ((T.dropLast.getD i []).getLastD 0 / (T.dropLast.getD i []).getD pc 0)
          else none) := by
  rw [ratioList, getD_map_of_lt _ _ none [] h]

/-- C8: on an already-optimal tableau — every entry of the objective row except
the final right-hand side is nonnegative — the pivoting loop of
`simplex_method_manual` performs zero pivots: the first entering-variable test
breaks out immediately, the tableau comes back unchanged, and the extracted
solution is exactly the extraction of the unchanged tableau. -/
theorem c8_zero_pivots_on_optimal_tableau (T : List (List ℚ)) (numVars fuel : Nat)
    (hne : (T.getLastD []).dropLast ≠ [])
    (hnn : ∀ v ∈ (T.getLastD []).dropLast, 0 ≤ v) :
    simplexLoop (fuel + 1) T 0 = some (.done T 0) ∧
      simplexFromTableau T numVars (fuel + 1)
        = some (.optimal (extractSolution T numVars) ((T.getLastD []).getLastD 0)) := by
  have hloop : simplexLoop (fuel + 1) T 0 = some (.done T 0) := by
    rw [simplexLoop]
    cases har : argminO (((T.getLastD []).dropLast).map some) with
    | none =>
      exfalso
      rw [argminO_eq_none] at har
      exact hne (List.map_eq_nil_iff.mp har)
    | some p =>
      obtain ⟨pc, v⟩ := p
      dsimp only
      obtain ⟨hlt, _, _, _⟩ := argminO_spec har
      rw [List.length_map] at hlt
      have hmem := getD_mem_of_lt ((T.getLastD []).dropLast) 0 hlt
      have h0 : 0 ≤ (T.getLastD []).dropLast.getD pc 0 := hnn _ hmem
      have heq : (T.getLastD []).dropLast.getD pc 0 = (T.getLastD []).getD pc 0 :=
        getD_dropLast _ 0 (by simpa using hlt)
      rw [heq] at h0
      rw [if_pos h0]
  refine ⟨hloop, ?_⟩
  rw [simplexFromTableau, hloop]

/-- Witness for C8: the tableau `[[2, 3], [1, 5]]` (objective row `[1, 5]`,
nonnegative left of its RHS) is returned after zero pivots, and the run result
is the extraction of that unchanged tableau. -/
theorem c8_zero_pivots_witness :
    simplexLoop 1 [[2, 3], [1, 5]] 0 = some (.done [[2, 3], [1, 5]] 0) ∧
      simplexFromTableau [[2, 3], [1, 5]] 1 1
        = some (.optimal (extractSolution [[2, 3], [1, 5]] 1)
            ((([[2, 3], [1, 5]] : List (List ℚ)).getLastD []).getLastD 0)) :=
  c8_zero_pivots_on_optimal_tableau [[2, 3], [1, 5]] 1 0 (by simp) (by norm_num)

/-- Spec-level ratio of constraint row `i` at pivot column `pc`:
`RHS i / entry (i, pc)`. -/
def ratioAt (T : List (List ℚ)) (pc i : Nat) : ℚ :=
  (T.dropLast.getD i []).getLastD 0 / (T.dropLast.getD i []).getD pc 0

/-- C9: the leaving-variable choice of `simplex_method_manual`.  Over the
constraint rows (all rows but the objective row), a non-positive pivot-column
entry stands for ratio `+∞`; the chosen pivot row has a strictly positive
pivot entry and the minimum ratio, ties broken by lowest index (every earlier
positive row has a strictly larger ratio); and when every constraint row is
non-positive in the pivot column — all ratios infinite — the loop returns
`unbounded` at once, performing no pivot. -/
theorem c9_ratio_test (T : List (List ℚ)) (pc : Nat) (hm : T.dropLast ≠ []) :
    ((∀ row ∈ T.dropLast, row.getD pc 0 ≤ 0) ↔ chooseLeaving T pc = some none)
    ∧ (∀ pr, chooseLeaving T pc = some (some pr) →
        pr < T.dropLast.length ∧ 0 < (T.dropLast.getD pr []).getD pc 0 ∧
        (∀ i, i < T.dropLast.length → 0 < (T.dropLast.getD i []).getD pc 0 →
          ratioAt T pc pr ≤ ratioAt T pc i) ∧
        (∀ i, i < pr → 0 < (T.dropLast.getD i []).getD pc 0 →
          ratioAt T pc pr < ratioAt T pc i))
    ∧ (∀ fuel count v, argminO (((T.getLastD []).dropLast).map some) = some (pc, v) →
        (T.getLastD []).getD pc 0 < 0 → chooseLeaving T pc = some none →
        simplexLoop (fuel + 1) T count = some .unbounded) := by
  refine ⟨⟨?_, ?_⟩, ?_, ?_⟩
  · intro h
    cases har : argminO (ratioList T pc) with
    | none =>
      exfalso
      rw [argminO_eq_none] at har
      rw [ratioList] at har
      exact hm (List.map_eq_nil_iff.mp har)
    | some p =>
      obtain ⟨i, m⟩ := p
      obtain ⟨hlt, hval, _, _⟩ := argminO_spec har
      rw [length_ratioList] at hlt
      rw [ratioList_getD T pc hlt] at hval
      rw [if_neg (not_lt.mpr (h _ (getD_mem_of_lt _ [] hlt)))] at hval
      rw [chooseLeaving, har, ← hval]
  · intro hc row hrow
    rw [chooseLeaving] at hc
    cases har : argminO (ratioList T pc) with
    | none => rw [har] at hc; exact absurd hc (by simp)
    | some p =>
      obtain ⟨i, m⟩ := p
      rw [har] at hc
      cases m with
      | some mv => exact absurd hc (by simp)
      | none =>
        obtain ⟨_, _, hmin, _⟩ := argminO_spec har
        obtain ⟨j, hj, hrowj⟩ := mem_getD ([] : List ℚ) hrow
        have hj' : j < (ratioList T pc).length := by rw [length_ratioList]; exact hj
        have hLt := hmin j hj'
        rw [ratioList_getD T pc hj, hrowj] at hLt
        by_cases hpos : 0 < row.getD pc 0
        · rw [if_pos hpos] at hLt
          simp [oLt] at hLt
        · exact not_lt.mp hpos
  · intro pr hc
    rw [chooseLeaving] at hc
    cases har : argminO (ratioList T pc) with
    | none => rw [har] at hc; exact absurd hc (by simp)
    | some p =>
      obtain ⟨i, m⟩ := p
      rw [har] at hc
      cases m with
      | none => exact absurd hc (by simp)
      | some mv =>
        have hi : i = pr := by simpa using hc
        subst hi
        obtain ⟨hlt, hval, hmin, hfirst⟩ := argminO_spec har
        rw [length_ratioList] at hlt
        rw [ratioList_getD T pc hlt] at hval
        by_cases hpos : 0 < (T.dropLast.getD i []).getD pc 0
        · rw [if_pos hpos] at hval
          injection hval with hval
          have hmv : ratioAt T pc i = mv := by rw [ratioAt]; exact hval
          refine ⟨hlt, hpos, ?_, ?_⟩
          · intro k hk hkpos
            have hk' := hmin k (by rw [length_ratioList]; exact hk)
            rw [ratioList_getD T pc hk, if_pos hkpos] at hk'
            simp [oLt] at hk'
            rw [hmv, ratioAt]
            simpa using hk'
          · intro k hk hkpos
            have hk' := hfirst k hk
            rw [ratioList_getD T pc (lt_trans hk hlt), if_pos hkpos] at hk'
            simp [oLt] at hk'
            rw [hmv, ratioAt]
            simpa using hk'
        · rw [if_neg hpos] at hval
          exact absurd hval (by simp)
  · intro fuel count v hargmin hneg hc
    rw [simplexLoop]
    rw [hargmin]
    dsimp only
    rw [if_neg (not_le.mpr hneg), hc]

/-- Witness for C9 at the tableau `[[-1, 5], [0, 7], [2, -3]]` (objective row
`[2, -3]`) and pivot column 0, whose constraint column `[-1, 0]` is entirely
non-positive. -/
theorem c9_ratio_test_witness :
    ((∀ row ∈ ([[-1, 5], [0, 7]] : List (List ℚ)), row.getD 0 0 ≤ 0) ↔
        chooseLeaving [[-1, 5], [0, 7], [2, -3]] 0 = some none)
    ∧ (∀ pr, chooseLeaving [[-1, 5], [0, 7], [2, -3]] 0 = some (some pr) →
        pr < ([[-1, 5], [0, 7], [2, -3]] : List (List ℚ)).dropLast.length ∧
        0 < (([[-1, 5], [0, 7], [2, -3]] : List (List ℚ)).dropLast.getD pr []).getD 0 0 ∧
        (∀ i, i < ([[-1, 5], [0, 7], [2, -3]] : List (List ℚ)).dropLast.length →
          0 < (([[-1, 5], [0, 7], [2, -3]] : List (List ℚ)).dropLast.getD i []).getD 0 0 →
          ratioAt [[-1, 5], [0, 7], [2, -3]] 0 pr ≤ ratioAt [[-1, 5], [0, 7], [2, -3]] 0 i) ∧
        (∀ i, i < pr →
          0 < (([[-1, 5], [0, 7], [2, -3]] : List (List ℚ)).dropLast.getD i []).getD 0 0 →
          ratioAt [[-1, 5], [0, 7], [2, -3]] 0 pr < ratioAt [[-1, 5], [0, 7], [2, -3]] 0 i))
    ∧ (∀ fuel count v,
        argminO (((([[-1, 5], [0, 7], [2, -3]] : List (List ℚ)).getLastD []).dropLast).map some)
          = some (0, v) →
        (([[-1, 5], [0, 7], [2, -3]] : List (List ℚ)).getLastD []).getD 0 0 < 0 →
        chooseLeaving [[-1, 5], [0, 7], [2, -3]] 0 = some none →
        simplexLoop (fuel + 1) [[-1, 5], [0, 7], [2, -3]] count = some .unbounded) := by
  have h := c9_ratio_test [[-1, 5], [0, 7], [2, -3]] 0 (by simp)
  simpa using h


/-! ### C1 and C4: solution extraction and missing RHS validation -/


/-- Modelled from the spec: the extraction rule of §4.3 calls a column "basic"
when it has exactly one entry equal to 1 and all other entries equal to 0
(tolerance taken as exact, since the model is over ℚ).  This is the
specification's test, stated independently of the code's test, for comparison. -/
def specBasicColumn (col : List ℚ) : Prop :=
  ∃ i, i < col.length ∧ col.getD i 0 = 1 ∧
    ∀ k, k < col.length → k ≠ i → col.getD k 0 = 0

/-- C1 (amended): in `extractSolution`, a column `j < numVars` is treated as
basic exactly under the code's test — exactly one entry equal to 1 and no
entry strictly greater than 1, with exact comparisons; entries other than the
1 may be nonzero as long as they do not exceed 1.  When that test holds the
variable's value is the RHS of the first row whose entry in the column equals
1; otherwise the value is 0. -/
theorem c1_extraction_amended (T : List (List ℚ)) (numVars j : Nat) (hj : j < numVars) :
    ((T.map (fun row => row.getD j 0)).countP (fun a => decide (a = 1)) = 1 ∧
       (T.map (fun row => row.getD j 0)).countP (fun a => decide (1 < a)) = 0 →
      ∃ i, i < T.length ∧ (T.map (fun row => row.getD j 0)).getD i 0 = 1 ∧
        (∀ k, k < i → (T.map (fun row => row.getD j 0)).getD k 0 ≠ 1) ∧
        (extractSolution T numVars).getD j 0 = (T.getD i []).getLastD 0)
    ∧ (¬((T.map (fun row => row.getD j 0)).countP (fun a => decide (a = 1)) = 1 ∧
         (T.map (fun row => row.getD j 0)).countP (fun a => decide (1 < a)) = 0) →
      (extractSolution T numVars).getD j 0 = 0) := by
  have hext : (extractSolution T numVars).getD j 0
      = (if (T.map (fun row => row.getD j 0)).countP (fun a => decide (a = 1)) = 1 ∧
            (T.map (fun row => row.getD j 0)).countP (fun a => decide (1 < a)) = 0 then
          (T.getD ((T.map (fun row => row.getD j 0)).findIdx (fun a => decide (a = 1))) []).getLastD 0
        else 0) := by
    rw [extractSolution, getD_map_of_lt _ _ 0 0 (by simpa using hj), getD_range 0 hj]
  constructor
  · intro hcond
    have hex : ∃ a ∈ T.map (fun row => row.getD j 0), (fun a => decide (a = 1)) a = true := by
      have h1 := hcond.1
      have hpos : 0 < (T.map (fun row => row.getD j 0)).countP (fun a => decide (a = 1)) := by
        omega
      exact List.countP_pos.mp hpos
    obtain ⟨hflt, hfval, hffirst⟩ := findIdx_spec (fun a => decide (a = 1)) 0 hex
    refine ⟨(T.map (fun row => row.getD j 0)).findIdx (fun a => decide (a = 1)),
      by simpa using hflt, by simpa using hfval, ?_, ?_⟩
    · intro k hk
      have hkk := hffirst k hk
      simpa using hkk
    · rw [hext, if_pos hcond]
  · intro hcond
    rw [hext, if_neg hcond]

/-- Witness for C1 (amended) on the final tableau of
`C = [0]`, `A = [[1], [1/2]]`, `b = [5, 6]` at the variable column `j = 0`. -/
theorem c1_extraction_witness :
    (((buildTableau [0] [[1], [1/2]] [5, 6]).map (fun row => row.getD 0 0)).countP
          (fun a => decide (a = 1)) = 1 ∧
       ((buildTableau [0] [[1], [1/2]] [5, 6]).map (fun row => row.getD 0 0)).countP
          (fun a => decide (1 < a)) = 0 →
      ∃ i, i < (buildTableau [0] [[1], [1/2]] [5, 6]).length ∧
        ((buildTableau [0] [[1], [1/2]] [5, 6]).map (fun row => row.getD 0 0)).getD i 0 = 1 ∧
        (∀ k, k < i →
          ((buildTableau [0] [[1], [1/2]] [5, 6]).map (fun row => row.getD 0 0)).getD k 0 ≠ 1) ∧
        (extractSolution (buildTableau [0] [[1], [1/2]] [5, 6]) 1).getD 0 0
          = ((buildTableau [0] [[1], [1/2]] [5, 6]).getD i []).getLastD 0)
    ∧ (¬(((buildTableau [0] [[1], [1/2]] [5, 6]).map (fun row => row.getD 0 0)).countP
            (fun a => decide (a = 1)) = 1 ∧
         ((buildTableau [0] [[1], [1/2]] [5, 6]).map (fun row => row.getD 0 0)).countP
            (fun a => decide (1 < a)) = 0) →
      (extractSolution (buildTableau [0] [[1], [1/2]] [5, 6]) 1).getD 0 0 = 0) :=
  c1_extraction_amended (buildTableau [0] [[1], [1/2]] [5, 6]) 1 0 (by norm_num)

/-- C1 (counterexample): on `C = [0]`, `A = [[1], [1/2]]`, `b = [5, 6]` the run
breaks out with zero pivots, so the final tableau's variable column is
`[1, 1/2, 0]`.  By the specification's rule this column is not basic (the
entry 1/2 is neither 0 nor 1), so the variable's value should be 0 — yet the
code accepts it as basic and returns the RHS value 5, with objective 0.  The
claimed extraction rule is therefore not the implemented one. -/
theorem c1_extraction_counterexample :
    ¬ specBasicColumn ((buildTableau [0] [[1], [1/2]] [5, 6]).map (fun row => row.getD 0 0))
    ∧ simplex_method_manual [0] [[1], [1/2]] [5, 6] 1 = some (.optimal [5] 0) := by
  constructor
  · have hcol : (buildTableau [0] [[1], [1/2]] [5, 6]).map (fun row => row.getD 0 0)
        = [1, 1/2, 0] := by
      norm_num [buildTableau, slackRow, List.enum, List.enumFrom, List.range_succ]
    rw [specBasicColumn, hcol]
    rintro ⟨i, hi, h1, hall⟩
    simp at hi
    interval_cases i
    · have h2 := hall 1 (by norm_num) (by norm_num)
      norm_num at h2
    · norm_num at h1
    · norm_num at h1
  · norm_num [simplex_method_manual, simplexFromTableau, buildTableau, slackRow, List.enum,
      List.enumFrom, List.range_succ, simplexLoop, argminO, oLt, extractSolution,
      List.countP, List.countP.go, List.findIdx, List.findIdx.go, List.replicate,
      List.getLast?, List.getLastD]

/-- C4 (counterexample): with the negative right-hand side `b = [-1]`
(`C = [1]`, `A = [[1]]`), `simplex_method_manual` does not reject the input:
it builds the tableau `[[1, 1, -1], [-1, 0, 0]]` and its loop performs one
pivot, ending with the tableau `[[1, 1, -1], [0, 1, -1]]` — rather than
returning any explicit rejection. -/
theorem c4_negative_rhs_counterexample :
    simplexLoop 2 (buildTableau [1] [[1]] [-1]) 0 = some (.done [[1, 1, -1], [0, 1, -1]] 1) := by
  have hT : buildTableau [1] [[1]] [-1] = [[1, 1, -1], [-1, 0, 0]] := by
    norm_num [buildTableau, slackRow, List.enum, List.enumFrom, List.range_succ]
  rw [hT]
  norm_num [simplexLoop, argminO, oLt, chooseLeaving, ratioList, pivotT, mapIdxL,
    List.enum, List.enumFrom]

/-- C4 (amended): `simplex_method_manual` performs no validation of `b`
whatsoever; on `C = [1]`, `A = [[1]]`, `b = [-1]` it pivots once and returns
the "solution" `[-1]` (violating `x ≥ 0`) with objective `-1`. -/
theorem c4_negative_rhs_run :
    simplex_method_manual [1] [[1]] [-1] 2 = some (.optimal [-1] (-1)) := by
  norm_num [simplex_method_manual, simplexFromTableau, buildTableau, slackRow, List.enum,
    List.enumFrom, List.range_succ, simplexLoop, argminO, oLt, chooseLeaving, ratioList,
    pivotT, mapIdxL, extractSolution, List.countP, List.countP.go, List.findIdx,
    List.findIdx.go]


/-! ### C2, C3, C6 and C7: the affine-scaling status claims -/


theorem rowsHavePositive_iff {A : List (List ℚ)} :
    rowsHavePositive A = true ↔ ∀ row ∈ A, ∃ v ∈ row, 0 < v := by
  simp [rowsHavePositive]

theorem boundViolated_iff {A : List (List ℚ)} {x0 b : List ℚ} (hlen : A.length ≤ b.length) :
    boundViolated A x0 b = true ↔
      ∃ i, i < A.length ∧ b.getD i 0 < (matVec A x0).getD i 0 := by
  have hmv : (matVec A x0).length = A.length := by simp [matVec]
  have hlz : (List.zip (matVec A x0) b).length = A.length := by
    rw [List.length_zip, hmv]
    omega
  rw [boundViolated, List.any_eq_true]
  constructor
  · rintro ⟨p, hp, hcmp⟩
    obtain ⟨i, hilen, hpe⟩ := List.mem_iff_getElem.mp hp
    have hi : i < A.length := by rw [← hlz]; exact hilen
    have hx : i < (matVec A x0).length := by rw [hmv]; exact hi
    have hb : i < b.length := lt_of_lt_of_le hi hlen
    have hpair : p = ((matVec A x0)[i], b[i]) := by
      rw [← hpe, List.getElem_zip]
    refine ⟨i, hi, ?_⟩
    rw [List.getD_eq_getElem b 0 hb, List.getD_eq_getElem _ 0 hx]
    rw [hpair] at hcmp
    simpa using hcmp
  · rintro ⟨i, hi, hlt⟩
    have hx : i < (matVec A x0).length := by rw [hmv]; exact hi
    have hb : i < b.length := lt_of_lt_of_le hi hlen
    refine ⟨((matVec A x0)[i], b[i]), ?_, ?_⟩
    · refine List.mem_iff_getElem.mpr ⟨i, by rw [hlz]; exact hi, ?_⟩
      rw [List.getElem_zip]
    · rw [List.getD_eq_getElem b 0 hb, List.getD_eq_getElem _ 0 hx] at hlt
      simpa using hlt

/-- C2 (amended): when the two applicability checks pass and the matrix
`Ã·Ãᵗ` built from the starting point is singular, the whole call surfaces the
uncaught low-level error of `np.linalg.inv` (`linAlgError`): no
`NumericalFailure` status exists on any code path. -/
theorem c2_singular_gram_uncaught (x0 : List ℚ) (alpha eps : ℚ) (b C : List ℚ)
    (A : List (List ℚ)) (fuel : Nat)
    (hrow : rowsHavePositive A = true) (hbound : boundViolated A x0 b = false)
    (hsing : npLinalgInv (scaledGram A x0) = none) :
    method x0 alpha eps b C A (fuel + 1) = some MethodOutcome.linAlgError := by
  have hstep : methodStep alpha eps C A x0 = .exit .linAlgError := by
    rw [methodStep, hsing]
  rw [method, if_pos hrow, if_neg (by simp [hbound]), methodLoop, hstep]

/-- Witness for C2 (amended) at `A = [[1, -1], [1, -1]]`, `x0 = [1, 1]`,
`b = [5, 5]`: the matrix Ã·Ãᵗ is `[[2, 2], [2, 2]]`, which is singular. -/
theorem c2_singular_gram_uncaught_witness :
    method [1, 1] (1/2) 1 [5, 5] [1, 1] [[1, -1], [1, -1]] 1
      = some MethodOutcome.linAlgError :=
  c2_singular_gram_uncaught [1, 1] (1/2) 1 [5, 5] [1, 1] [[1, -1], [1, -1]] 0
    (by decide) (by norm_num [boundViolated, matVec, dotL])
    (by
      have hg : scaledGram [[1, -1], [1, -1]] [1, 1] = [[2, 2], [2, 2]] := by
        norm_num [scaledGram, aTilda, diagL, matMul, transposeL, dotL, List.range_succ]
      have hd : detL ([[2, 2], [2, 2]] : List (List ℚ)) = 0 := by
        norm_num [detL, detN, List.range_succ, List.eraseIdx]
      rw [hg, npLinalgInv, if_pos hd])

/-- C2 (counterexample): on the singular instance `A = [[1, -1], [1, -1]]`,
`x0 = [1, 1]`, `b = [0, 0]`, the call comes back with the propagated low-level
error, not with the NumericalFailure status the claim promises. -/
theorem c2_singular_counterexample :
    method [1, 1] (1/2) 1 [0, 0] [1, 1] [[1, -1], [1, -1]] 1
        = some MethodOutcome.linAlgError
    ∧ some MethodOutcome.linAlgError ≠ some MethodOutcome.numericalFailure := by
  constructor
  · have hg : scaledGram [[1, -1], [1, -1]] [1, 1] = [[2, 2], [2, 2]] := by
      norm_num [scaledGram, aTilda, diagL, matMul, transposeL, dotL, List.range_succ]
    have hd : detL ([[2, 2], [2, 2]] : List (List ℚ)) = 0 := by
      norm_num [detL, detN, List.range_succ, List.eraseIdx]
    have hstep : methodStep (1/2) 1 [1, 1] [[1, -1], [1, -1]] [1, 1]
        = .exit .linAlgError := by
      rw [methodStep, hg, npLinalgInv, if_pos hd]
    rw [method, if_pos (by decide), if_neg (by norm_num [boundViolated, matVec, dotL]),
      methodLoop, hstep]
  · simp

/-- Predicate: the affine-scaling call never finishes — for every fuel bound
the loop is still running.  (`method` with fuel `n` is `none` exactly when the
source's unbounded `while` loop has not returned within `n` iterations.) -/
def methodNeverTerminates (x0 : List ℚ) (alpha eps : ℚ) (b C : List ℚ)
    (A : List (List ℚ)) : Prop :=
  ∀ fuel, method x0 alpha eps b C A fuel = none

/-- C3 (counterexample): on `C = [0, -2]`, `A = [[1, -1]]`, `b = [1]`,
`x0 = [1, 1]`, `α = 1/2`, `ε = 0`, the iteration loop of `method` never
terminates: both checks pass, and from `[s, s]` every iteration hands
`[s/2, s/2]` to the next one while the convergence test `‖x* − x‖ ≤ 0` never
holds.  So there is no iteration cap and the loop is not guaranteed to
terminate. -/
theorem c3_no_cap_counterexample :
    methodNeverTerminates [1, 1] (1/2) 0 [1] [0, -2] [[1, -1]] := by
  intro fuel
  rw [method, if_pos (by decide), if_neg (by norm_num [boundViolated, matVec, dotL])]
  exact methodLoop_never_halts fuel 1 one_pos

/-- C3 (amended): `method` has no iteration cap and no NonConvergence report:
every outcome an actual run delivers is one of the statuses the code prints
(noSolution, notApplicableInit, notApplicableGate, the propagated inversion
error, a degenerate-shape error, or convergence) — never the spec's
NonConvergence, and never its NumericalFailure either. -/
theorem c3_no_cap_no_nonconvergence (x0 : List ℚ) (alpha eps : ℚ) (b C : List ℚ)
    (A : List (List ℚ)) (fuel : Nat) (o : MethodOutcome)
    (h : method x0 alpha eps b C A fuel = some o) :
    o ≠ MethodOutcome.nonConvergence ∧ o ≠ MethodOutcome.numericalFailure := by
  rcases method_outcome h with h1 | h1 | h1 | h1 | h1 | ⟨xs, v, h1⟩ <;>
    subst h1 <;> exact ⟨by simp, by simp⟩

/-- Witness for C3 (amended): the run on `A = [[-5]]` returns `noSolution`,
which is neither NonConvergence nor NumericalFailure. -/
theorem c3_no_cap_witness :
    MethodOutcome.noSolution ≠ MethodOutcome.nonConvergence ∧
      MethodOutcome.noSolution ≠ MethodOutcome.numericalFailure :=
  c3_no_cap_no_nonconvergence [1] (1/2) 1 [0] [0] [[-5]] 1 MethodOutcome.noSolution
    (by rw [method, if_neg (by decide)])

/-- C6: `method` reports "no solution" exactly when some row of `A` has no
strictly positive entry; in particular `A = [[-1, -2]]` is flagged. -/
theorem c6_row_positivity :
    (∀ (x0 : List ℚ) (alpha eps : ℚ) (b C : List ℚ) (A : List (List ℚ)) (fuel : Nat),
      (method x0 alpha eps b C A fuel = some MethodOutcome.noSolution ↔
        ∃ row ∈ A, ∀ v ∈ row, v ≤ 0))
    ∧ method [1, 1] (1/2) 1 [0] [0, 0] [[-1, -2]] 1 = some MethodOutcome.noSolution := by
  constructor
  · intro x0 alpha eps b C A fuel
    constructor
    · intro h
      by_contra hno
      have hpos : rowsHavePositive A = true := by
        rw [rowsHavePositive_iff]
        intro row hrow
        by_contra hnone
        push_neg at hnone
        exact hno ⟨row, hrow, hnone⟩
      rw [method, if_pos hpos] at h
      by_cases hb : boundViolated A x0 b = true
      · rw [if_pos hb] at h
        simp at h
      · rw [if_neg hb] at h
        rcases methodLoop_outcome fuel x0 _ h with h1 | h1 | h1 | ⟨xs, v, h1⟩ <;>
          simp at h1
    · rintro ⟨row, hrow, hle⟩
      have hfail : ¬ rowsHavePositive A = true := by
        rw [rowsHavePositive_iff]
        push_neg
        exact ⟨row, hrow, hle⟩
      rw [method, if_neg hfail]
  · rw [method, if_neg (by decide)]

/-- C7: with conforming shapes (`b` at least as long as `A` has rows), `method`
reports the initial-point failure exactly when the row-positivity test passed
and some component of `A·x0` strictly exceeds the matching component of `b`
(the source compares exactly; over ℚ the floating tolerance is zero). -/
theorem c7_initial_point_test (x0 b C : List ℚ) (A : List (List ℚ)) (alpha eps : ℚ)
    (fuel : Nat) (hlen : A.length ≤ b.length) :
    method x0 alpha eps b C A fuel = some MethodOutcome.notApplicableInit ↔
      ((∀ row ∈ A, ∃ v ∈ row, 0 < v) ∧
        ∃ i, i < A.length ∧ b.getD i 0 < (matVec A x0).getD i 0) := by
  constructor
  · intro h
    rw [method] at h
    by_cases hrow : rowsHavePositive A = true
    · rw [if_pos hrow] at h
      by_cases hb : boundViolated A x0 b = true
      · exact ⟨rowsHavePositive_iff.mp hrow, (boundViolated_iff hlen).mp hb⟩
      · rw [if_neg hb] at h
        rcases methodLoop_outcome fuel x0 _ h with h1 | h1 | h1 | ⟨xs, v, h1⟩ <;>
          simp at h1
    · rw [if_neg hrow] at h
      simp at h
  · rintro ⟨hrow, hbv⟩
    rw [method, if_pos (rowsHavePositive_iff.mpr hrow),
      if_pos ((boundViolated_iff hlen).mpr hbv)]

/-- Witness for C7: `x0 = [10, 10]` against `A = [[1, 0], [0, 1]]`,
`b = [4, 4]` is flagged NotApplicable (`A·x0 = [10, 10]` exceeds `b`). -/
theorem c7_initial_point_test_witness :
    method [10, 10] (1/2) 1 [4, 4] [0, 0] [[1, 0], [0, 1]] 1
      = some MethodOutcome.notApplicableInit :=
  (c7_initial_point_test [10, 10] [4, 4] [0, 0] [[1, 0], [0, 1]] (1/2) 1 1
      (by norm_num)).mpr
    ⟨by norm_num, 0, by norm_num, by norm_num [matVec, dotL]⟩



/-! ### C10: neither solver mutates its input arrays

The Python run is modelled with an explicit variable store: every in-place
NumPy write of the source targets a specific array, and each such write
becomes an update of exactly the corresponding field.  `method` writes only
its loop iterate `x` — line 35 starts it from a fresh copy
(`np.array(x0, dtype=float)`) of `x0` — and `simplex_method_manual` writes
only its `tableau`, freshly built at lines 74–78 (the slice assignments there
copy the values of `A`, `b`, `C` into the new array).  The fields `A`, `b`,
`C`, `x0` are never assigned. -/

structure PyState where
  A : List (List ℚ)
  b : List ℚ
  C : List ℚ
  x0 : List ℚ
  x : List ℚ
  tableau : List (List ℚ)

/-- The `while not solved` loop as a store transformer: reads `C`, `A`, `x`;
writes only `x`. -/
def methodLoopS (alpha eps : ℚ) : Nat → PyState → PyState × Option MethodOutcome
  | 0, s => (s, none)
  | fuel + 1, s =>
    match methodStep alpha eps s.C s.A s.x with
    | .exit o => (s, some o)
    | .next xn => methodLoopS alpha eps fuel { s with x := xn }
    | .nextNaN => (s, none)

/-- `method` as a store transformer. -/
def methodS (alpha eps : ℚ) (fuel : Nat) (s : PyState) : PyState × Option MethodOutcome :=
  if rowsHavePositive s.A then
    if boundViolated s.A s.x0 s.b then (s, some .notApplicableInit)
    else methodLoopS alpha eps fuel { s with x := s.x0 }
  else (s, some .noSolution)

/-- The pivoting loop as a store transformer: reads and writes only `tableau`. -/
def simplexLoopS : Nat → PyState → Nat → PyState × Option LoopResult
  | 0, s, _ => (s, none)
  | fuel + 1, s, count =>
    match argminO (((s.tableau.getLastD []).dropLast).map some) with
    | none => (s, some .err)
    | some (pc, _) =>
      if 0 ≤ (s.tableau.getLastD []).getD pc 0 then (s, some (.done s.tableau count))
      else
        match chooseLeaving s.tableau pc with
        | none => (s, some .err)
        | some none => (s, some .unbounded)
        | some (some pr) =>
            simplexLoopS fuel { s with tableau := pivotT s.tableau pr pc } (count + 1)

/-- `simplex_method_manual` as a store transformer; `num_vars` is read from `C`
at entry, as in the source. -/
def simplexS (fuel : Nat) (s : PyState) : PyState × Option SimplexOutcome :=
  match simplexLoopS fuel { s with tableau := buildTableau s.C s.A s.b } 0 with
  | (s2, none) => (s2, none)
  | (s2, some .err) => (s2, some .pyError)
  | (s2, some .unbounded) => (s2, some .unbounded)
  | (s2, some (.done T _)) =>
      (s2, some (.optimal (extractSolution T s.C.length) ((T.getLastD []).getLastD 0)))

theorem methodLoopS_spec (alpha eps : ℚ) :
    ∀ (fuel : Nat) (s : PyState),
      (methodLoopS alpha eps fuel s).1.A = s.A ∧ (methodLoopS alpha eps fuel s).1.b = s.b ∧
      (methodLoopS alpha eps fuel s).1.C = s.C ∧ (methodLoopS alpha eps fuel s).1.x0 = s.x0 ∧
      (methodLoopS alpha eps fuel s).2 = methodLoop alpha eps s.C s.A fuel s.x := by
  intro fuel
  induction fuel with
  | zero => intro s; exact ⟨rfl, rfl, rfl, rfl, rfl⟩
  | succ fuel ih =>
    intro s
    rw [methodLoopS, methodLoop]
    cases hstep : methodStep alpha eps s.C s.A s.x with
    | exit o => exact ⟨rfl, rfl, rfl, rfl, rfl⟩
    | next xn => simpa using ih { s with x := xn }
    | nextNaN => exact ⟨rfl, rfl, rfl, rfl, rfl⟩

theorem simplexLoopS_spec :
    ∀ (fuel : Nat) (s : PyState) (count : Nat),
      (simplexLoopS fuel s count).1.A = s.A ∧ (simplexLoopS fuel s count).1.b = s.b ∧
      (simplexLoopS fuel s count).1.C = s.C ∧ (simplexLoopS fuel s count).1.x0 = s.x0 ∧
      (simplexLoopS fuel s count).2 = simplexLoop fuel s.tableau count := by
  intro fuel
  induction fuel with
  | zero => intro s count; exact ⟨rfl, rfl, rfl, rfl, rfl⟩
  | succ fuel ih =>
    intro s count
    rw [simplexLoopS, simplexLoop]
    cases har : argminO (((s.tableau.getLastD []).dropLast).map some) with
    | none => exact ⟨rfl, rfl, rfl, rfl, rfl⟩
    | some p =>
      obtain ⟨pc, v⟩ := p
      dsimp only
      by_cases h0 : 0 ≤ (s.tableau.getLastD []).getD pc 0
      · rw [if_pos h0, if_pos h0]
        exact ⟨rfl, rfl, rfl, rfl, rfl⟩
      · rw [if_neg h0, if_neg h0]
        cases hcl : chooseLeaving s.tableau pc with
        | none => exact ⟨rfl, rfl, rfl, rfl, rfl⟩
        | some o =>
          cases o with
          | none => exact ⟨rfl, rfl, rfl, rfl, rfl⟩
          | some pr => simpa using ih { s with tableau := pivotT s.tableau pr pc } (count + 1)

/-- C10: neither solver mutates its input data.  In the store model, after
running either solver the fields `A`, `b`, `C`, `x0` hold exactly their
initial values — `method` iterates only its private copy `x` of `x0` and
`simplex_method_manual` rewrites only its freshly built `tableau` — and each
store run returns the very result of the pure function of the same inputs. -/
theorem c10_inputs_unchanged (alpha eps : ℚ) (fuel : Nat) (s : PyState) :
    ((methodS alpha eps fuel s).1.A = s.A ∧ (methodS alpha eps fuel s).1.b = s.b ∧
      (methodS alpha eps fuel s).1.C = s.C ∧ (methodS alpha eps fuel s).1.x0 = s.x0) ∧
    ((simplexS fuel s).1.A = s.A ∧ (simplexS fuel s).1.b = s.b ∧
      (simplexS fuel s).1.C = s.C ∧ (simplexS fuel s).1.x0 = s.x0) ∧
    (methodS alpha eps fuel s).2 = method s.x0 alpha eps s.b s.C s.A fuel ∧
    (simplexS fuel s).2 = simplex_method_manual s.C s.A s.b fuel := by
  have hmethod : ((methodS alpha eps fuel s).1.A = s.A ∧ (methodS alpha eps fuel s).1.b = s.b ∧
      (methodS alpha eps fuel s).1.C = s.C ∧ (methodS alpha eps fuel s).1.x0 = s.x0) ∧
      (methodS alpha eps fuel s).2 = method s.x0 alpha eps s.b s.C s.A fuel := by
    rw [methodS, method]
    by_cases hrow : rowsHavePositive s.A = true
    · rw [if_pos hrow, if_pos hrow]
      by_cases hb : boundViolated s.A s.x0 s.b = true
      · rw [if_pos hb, if_pos hb]
        exact ⟨⟨rfl, rfl, rfl, rfl⟩, rfl⟩
      · rw [if_neg hb, if_neg hb]
        have h := methodLoopS_spec alpha eps fuel { s with x := s.x0 }
        exact ⟨⟨h.1, h.2.1, h.2.2.1, h.2.2.2.1⟩, h.2.2.2.2⟩
    · rw [if_neg hrow, if_neg hrow]
      exact ⟨⟨rfl, rfl, rfl, rfl⟩, rfl⟩
  have hsimplex : ((simplexS fuel s).1.A = s.A ∧ (simplexS fuel s).1.b = s.b ∧
      (simplexS fuel s).1.C = s.C ∧ (simplexS fuel s).1.x0 = s.x0) ∧
      (simplexS fuel s).2 = simplex_method_manual s.C s.A s.b fuel := by
    have h := simplexLoopS_spec fuel { s with tableau := buildTableau s.C s.A s.b } 0
    rw [simplexS, simplex_method_manual, simplexFromTableau]
    cases hrun : simplexLoopS fuel { s with tableau := buildTableau s.C s.A s.b } 0 with
    | mk s2 r =>
      rw [hrun] at h
      obtain ⟨hA, hb2, hC, hx0, hres⟩ := h
      rw [← hres]
      cases r with
      | none => exact ⟨⟨hA, hb2, hC, hx0⟩, rfl⟩
      | some lr =>
        cases lr with
        | err => exact ⟨⟨hA, hb2, hC, hx0⟩, rfl⟩
        | unbounded => exact ⟨⟨hA, hb2, hC, hx0⟩, rfl⟩
        | done T k => exact ⟨⟨hA, hb2, hC, hx0⟩, rfl⟩
  exact ⟨hmethod.1, hsimplex.1, hmethod.2, hsimplex.2⟩



/-- Cross-check against the specification's end-to-end instance (§8): maximize
`3x₁ + 2x₂` under `x₁ ≤ 4`, `x₂ ≤ 4`, `x₁ + x₂ ≤ 5` — the simplex run returns
the vertex `[4, 1]` with objective value 14. -/
example : simplex_method_manual [3, 2] [[1, 0], [0, 1], [1, 1]] [4, 4, 5] 5
    = some (.optimal [4, 1] 14) := by
  norm_num [simplex_method_manual, simplexFromTableau, buildTableau, slackRow, List.enum,
    List.enumFrom, List.range_succ, simplexLoop, argminO, oLt, chooseLeaving, ratioList,
    pivotT, mapIdxL, extractSolution, List.countP, List.countP.go, List.findIdx,
    List.findIdx.go, List.replicate, List.getLast?, List.getLastD]


end Opta2
